import Mathlib

/-!
Verification of the `mesher` UDP mesh overlay (single source file `mesher/mesher.go`).

The development shallowly embeds the data model and the operations of the
source: Go byte arrays become length-indexed lists of `Nat`, Go maps become
association lists (for maps with values) or duplicate-free lists (for sets),
channel emissions become explicit result lists, and the fallible address
conversion becomes an `Option`.  The gob wire codec is external library code;
following the design notes of the specification it is modelled as an explicit
tagged encoding over the seven protocol variants.
-/

namespace Mesher

/-- Lists of `Nat` of a fixed length, modelling Go byte arrays and slices of
known length.  Byte-range constraints (`b < 256`) are stated as hypotheses
where a claim needs them. -/
abbrev Bytes (n : Nat) := { l : List Nat // l.length = n }

/-- Source: `type address [18]byte` — the 18-byte canonical endpoint key
(16 bytes of IPv6 form plus a big-endian port). -/
abbrev address := Bytes 18

/-- Model of `netip.Addr`: either a 4-byte IPv4 address or a 16-byte IPv6
address.  `netip.AddrFromSlice` accepts exactly these two lengths. -/
inductive IP where
  | v4 : Bytes 4 → IP
  | v6 : Bytes 16 → IP
deriving DecidableEq

/-- Model of `*net.UDPAddr` (a UDP endpoint): an IP address and a port.
Ports are `Nat`, with `port < 65536` as a hypothesis where needed. -/
structure Endpoint where
  ip : IP
  port : Nat
deriving DecidableEq

/-- Model of `netip.Addr.As16`: the 16-byte IPv6 form of an address.  IPv4
addresses are returned in their IPv4-in-IPv6 mapped form. -/
def as16 : IP → List Nat
  | .v4 bs => [0, 0, 0, 0, 0, 0, 0, 0, 0, 0, 255, 255] ++ bs.val
  | .v6 bs => bs.val

theorem as16_length (ip : IP) : (as16 ip).length = 16 := by
  cases ip with
  | v4 bs => simp [as16, bs.property]
  | v6 bs => simp [as16, bs.property]

/-- Source: `func addrKey(addr *net.UDPAddr) address` — the 16-byte `As16`
form of the IP followed by the port in big-endian. -/
def addrKey (addr : Endpoint) : address :=
  ⟨as16 addr.ip ++ [addr.port / 256, addr.port % 256], by
    simp [as16_length]⟩

/-- Model of `netip.AddrFromSlice`: succeeds exactly on slices of length 4
or 16 (tried in that order, as in the Go standard library). -/
def addrFromSlice (bs : List Nat) : Option IP :=
  if h4 : bs.length = 4 then some (.v4 ⟨bs, h4⟩)
  else if h16 : bs.length = 16 then some (.v6 ⟨bs, h16⟩)
  else none

/-- Source: `func addrFromKey(a address) *net.UDPAddr` — rebuild the endpoint
from the first 16 bytes and the big-endian port in bytes 16..18; returns
`none` (Go: `nil`) when `AddrFromSlice` rejects the slice. -/
def addrFromKey (a : address) : Option Endpoint :=
  match addrFromSlice (a.val.take 16) with
  | none => none
  | some ip => some ⟨ip, a.val.getD 16 0 * 256 + a.val.getD 17 0⟩

/-- Legality of an 18-byte key: every byte is in range. -/
abbrev KeyOk (a : address) : Prop := ∀ b ∈ a.val, b < 256

/-- UDP equivalence of endpoints: same 16-byte address form and same port
(an IPv4 endpoint and its IPv4-in-IPv6 form denote the same UDP endpoint). -/
abbrev udpEquiv (e1 e2 : Endpoint) : Prop :=
  as16 e1.ip = as16 e2.ip ∧ e1.port = e2.port

theorem take_append_exact {α : Type} (l1 l2 : List α) (n : Nat)
    (h : l1.length = n) : (l1 ++ l2).take n = l1 := by
  subst h
  exact List.take_left l1 l2

theorem drop_append_exact {α : Type} (l1 l2 : List α) (n : Nat)
    (h : l1.length = n) : (l1 ++ l2).drop n = l2 := by
  subst h
  exact List.drop_left l1 l2

theorem list18_decomp (l : List Nat) (h : l.length = 18) :
    l.take 16 ++ [l.getD 16 0, l.getD 17 0] = l := by
  have h16 : 16 < l.length := by omega
  have h17 : 17 < l.length := by omega
  have hd : l.drop 16 = [l.getD 16 0, l.getD 17 0] := by
    rw [List.drop_eq_getElem_cons h16, List.drop_eq_getElem_cons h17,
      List.drop_eq_nil_of_le (by omega)]
    rw [List.getD_eq_getElem l 0 h16, List.getD_eq_getElem l 0 h17]
  conv_rhs => rw [← List.take_append_drop 16 l]
  rw [hd]

theorem addrFromKey_eq (a : address) :
    addrFromKey a =
      some ⟨.v6 ⟨a.val.take 16, by simp [List.length_take, a.property]⟩,
        a.val.getD 16 0 * 256 + a.val.getD 17 0⟩ := by
  have hlen : (a.val.take 16).length = 16 := by
    simp [List.length_take, a.property]
  simp only [addrFromKey, addrFromSlice]
  rw [dif_neg (by omega), dif_pos hlen]

theorem addrFromKey_isSome (a : address) : (addrFromKey a).isSome = true := by
  rw [addrFromKey_eq]
  rfl

theorem addrKey_addrFromKey (a : address) (h : KeyOk a) (e : Endpoint)
    (he : addrFromKey a = some e) : addrKey e = a := by
  rw [addrFromKey_eq] at he
  have h17m : a.val.getD 17 0 ∈ a.val := by
    have : 17 < a.val.length := by rw [a.property]; omega
    rw [List.getD_eq_getElem a.val 0 this]
    exact a.val.getElem_mem this
  have h17 : a.val.getD 17 0 < 256 := h _ h17m
  obtain rfl : e = _ := (Option.some.injEq _ _).mp he.symm
  apply Subtype.ext
  show as16 _ ++ _ = a.val
  have hdiv : (a.val.getD 16 0 * 256 + a.val.getD 17 0) / 256 = a.val.getD 16 0 := by
    omega
  have hmod : (a.val.getD 16 0 * 256 + a.val.getD 17 0) % 256 = a.val.getD 17 0 := by
    omega
  rw [hdiv, hmod]
  exact list18_decomp a.val a.property

theorem addrFromKey_addrKey (e : Endpoint) :
    ∃ e', addrFromKey (addrKey e) = some e' ∧ udpEquiv e' e := by
  rw [addrFromKey_eq]
  refine ⟨_, rfl, ?_, ?_⟩
  · show as16 (.v6 ⟨(addrKey e).val.take 16, _⟩) = as16 e.ip
    show (addrKey e).val.take 16 = as16 e.ip
    exact take_append_exact _ _ _ (as16_length e.ip)
  · show (addrKey e).val.getD 16 0 * 256 + (addrKey e).val.getD 17 0 = e.port
    have h1 : (addrKey e).val.getD 16 0 = e.port / 256 := by
      show (as16 e.ip ++ [e.port / 256, e.port % 256]).getD 16 0 = _
      rw [List.getD_append_right _ _ _ _ (by rw [as16_length])]
      simp [as16_length]
    have h2 : (addrKey e).val.getD 17 0 = e.port % 256 := by
      show (as16 e.ip ++ [e.port / 256, e.port % 256]).getD 17 0 = _
      rw [List.getD_append_right _ _ _ _ (by rw [as16_length]; omega)]
      simp [as16_length]
    rw [h1, h2]
    omega

theorem addrKey_inj_iff (e1 e2 : Endpoint) :
    udpEquiv e1 e2 ↔ addrKey e1 = addrKey e2 := by
  constructor
  · rintro ⟨hip, hport⟩
    apply Subtype.ext
    show as16 e1.ip ++ _ = as16 e2.ip ++ _
    rw [hip, hport]
  · intro h
    have hv : as16 e1.ip ++ [e1.port / 256, e1.port % 256]
        = as16 e2.ip ++ [e2.port / 256, e2.port % 256] := congrArg Subtype.val h
    have hlen : (as16 e1.ip).length = (as16 e2.ip).length := by
      rw [as16_length, as16_length]
    obtain ⟨hip, hrest⟩ := List.append_inj hv hlen
    refine ⟨hip, ?_⟩
    have hd : e1.port / 256 = e2.port / 256 ∧ e1.port % 256 = e2.port % 256 := by
      simpa using hrest
    omega

theorem addrFromKey_inj (a1 a2 : address) (h1 : KeyOk a1) (h2 : KeyOk a2)
    (h : addrFromKey a1 = addrFromKey a2) : a1 = a2 := by
  rw [addrFromKey_eq, addrFromKey_eq] at h
  simp only [Option.some.injEq, Endpoint.mk.injEq, IP.v6.injEq,
    Subtype.mk.injEq] at h
  obtain ⟨htake, hport⟩ := h
  have g16a : a1.val.getD 16 0 ∈ a1.val := by
    have : 16 < a1.val.length := by rw [a1.property]; omega
    rw [List.getD_eq_getElem a1.val 0 this]; exact a1.val.getElem_mem this
  have g17a : a1.val.getD 17 0 ∈ a1.val := by
    have : 17 < a1.val.length := by rw [a1.property]; omega
    rw [List.getD_eq_getElem a1.val 0 this]; exact a1.val.getElem_mem this
  have g16b : a2.val.getD 16 0 ∈ a2.val := by
    have : 16 < a2.val.length := by rw [a2.property]; omega
    rw [List.getD_eq_getElem a2.val 0 this]; exact a2.val.getElem_mem this
  have g17b : a2.val.getD 17 0 ∈ a2.val := by
    have : 17 < a2.val.length := by rw [a2.property]; omega
    rw [List.getD_eq_getElem a2.val 0 this]; exact a2.val.getElem_mem this
  have b16a := h1 _ g16a
  have b17a := h1 _ g17a
  have b16b := h2 _ g16b
  have b17b := h2 _ g17b
  have e16 : a1.val.getD 16 0 = a2.val.getD 16 0 := by omega
  have e17 : a1.val.getD 17 0 = a2.val.getD 17 0 := by omega
  apply Subtype.ext
  calc a1.val = a1.val.take 16 ++ [a1.val.getD 16 0, a1.val.getD 17 0] :=
        (list18_decomp a1.val a1.property).symm
    _ = a2.val.take 16 ++ [a2.val.getD 16 0, a2.val.getD 17 0] := by
        rw [htake, e16, e17]
    _ = a2.val := list18_decomp a2.val a2.property

/-- The protocol message: a tagged union with exactly seven variants, as in
the source (`getPeerList`, `peerList`, `keepAlive`, `isAlive`,
`dataRelayTo`, `dataRelayedFrom`, `dataDirect`).  Field names follow the Go
struct fields. -/
inductive msg where
  | getPeerList : msg
  | peerList : List address → msg
  | keepAlive : msg
  | isAlive : msg
  | dataRelayTo : address → List Nat → msg
  | dataRelayedFrom : address → List Nat → msg
  | dataDirect : List Nat → msg
deriving DecidableEq

/-- Source: `type response struct { to *net.UDPAddr; m interface{} }`.
A `none` target models a `nil` pointer (`To` capitalised because `to` is
reserved in Lean). -/
structure response where
  To : Option Endpoint
  m : msg
deriving DecidableEq

/-- Source: `type request struct { from *net.UDPAddr; buffer []byte }`. -/
structure request where
  fr : Endpoint
  buffer : List Nat

/-- Splits a byte list into consecutive 18-byte address keys; fails unless
the length is an exact multiple of 18.  Helper for the wire codec. -/
def chunk18 (bs : List Nat) : Option (List address) :=
  if hne : bs = [] then some []
  else if h : 18 ≤ bs.length then
    match chunk18 (bs.drop 18) with
    | some ls => some (⟨bs.take 18, by rw [List.length_take]; omega⟩ :: ls)
    | none => none
  else none
termination_by bs.length
decreasing_by
  rw [List.length_drop]
  have : 0 < bs.length := List.length_pos.mpr hne
  omega

/-- Modelled from the spec: the gob wire codec is Go standard-library code,
not part of this repository; following the design notes it is replaced by a
self-describing encoding that tags the variant with a leading discriminant
byte and marshals the fields in declaration order (fixed 18-byte addresses,
then the payload as the remaining bytes). -/
def encode : msg → List Nat
  | .getPeerList => [0]
  | .peerList addrs => 1 :: addrs.unattach.flatten
  | .keepAlive => [2]
  | .isAlive => [3]
  | .dataRelayTo To dat => 4 :: (To.val ++ dat)
  | .dataRelayedFrom fr dat => 5 :: (fr.val ++ dat)
  | .dataDirect dat => 6 :: dat

/-- Modelled from the spec: inverse of `encode`; unknown tags and malformed
field layouts yield a decode error (the `Except.error` carries the log
text). -/
def decode (bs : List Nat) : Except String msg :=
  match bs with
  | [] => .error ("empty datagram")
  | t :: rest =>
    if t = 0 then
      (if rest = [] then .ok .getPeerList else .error ("trailing bytes"))
    else if t = 1 then
      (match chunk18 rest with
       | some addrs => .ok (.peerList addrs)
       | none => .error ("malformed address list"))
    else if t = 2 then
      (if rest = [] then .ok .keepAlive else .error ("trailing bytes"))
    else if t = 3 then
      (if rest = [] then .ok .isAlive else .error ("trailing bytes"))
    else if t = 4 then
      (if h : 18 ≤ rest.length then
        .ok (.dataRelayTo ⟨rest.take 18, by rw [List.length_take]; omega⟩
          (rest.drop 18))
       else .error ("short relay request"))
    else if t = 5 then
      (if h : 18 ≤ rest.length then
        .ok (.dataRelayedFrom ⟨rest.take 18, by rw [List.length_take]; omega⟩
          (rest.drop 18))
       else .error ("short relayed payload"))
    else if t = 6 then .ok (.dataDirect rest)
    else .error ("unknown tag")

theorem chunk18_nil : chunk18 [] = some [] := by
  rw [chunk18]
  simp

theorem chunk18_join (ls : List address) :
    chunk18 (ls.unattach.flatten) = some ls := by
  induction ls with
  | nil => simpa using chunk18_nil
  | cons a ls ih =>
    have hj : ((a :: ls).unattach).flatten = a.val ++ ls.unattach.flatten := by
      simp
    have hnil : ((a :: ls).unattach).flatten ≠ [] := by
      rw [hj]
      intro hc
      have hl := congrArg List.length hc
      rw [List.length_append, a.property, List.length_nil] at hl
      omega
    have hlen : 18 ≤ ((a :: ls).unattach).flatten.length := by
      rw [hj, List.length_append, a.property]
      omega
    rw [chunk18, dif_neg hnil, dif_pos hlen]
    have ht : ((a :: ls).unattach).flatten.take 18 = a.val := by
      rw [hj]
      exact take_append_exact _ _ _ a.property
    have hd : ((a :: ls).unattach).flatten.drop 18 = ls.unattach.flatten := by
      rw [hj]
      exact drop_append_exact _ _ _ a.property
    rw [hd, ih]
    simp [ht]

theorem chunk18_sound_aux (n : Nat) :
    ∀ bs : List Nat, bs.length ≤ n → ∀ ls, chunk18 bs = some ls →
      ls.unattach.flatten = bs := by
  induction n with
  | zero =>
    intro bs hb ls h
    have hbs : bs = [] := List.length_eq_zero.mp (by omega)
    subst hbs
    rw [chunk18_nil] at h
    obtain rfl : ls = [] := by simpa using h.symm
    simp
  | succ n ih =>
    intro bs hb ls h
    by_cases hne : bs = []
    · subst hne
      rw [chunk18_nil] at h
      obtain rfl : ls = [] := by simpa using h.symm
      simp
    · rw [chunk18] at h
      rw [dif_neg hne] at h
      by_cases hlen : 18 ≤ bs.length
      · rw [dif_pos hlen] at h
        cases hc : chunk18 (bs.drop 18) with
        | none => rw [hc] at h; simp at h
        | some ls' =>
          rw [hc] at h
          simp only [Option.some.injEq] at h
          subst h
          have hr := ih (bs.drop 18) (by rw [List.length_drop]; omega) ls' hc
          have hsplit : (bs.take 18) ++ (ls'.unattach.flatten) = bs := by
            rw [hr]
            exact List.take_append_drop 18 bs
          simpa using hsplit
      · rw [dif_neg hlen] at h
        simp at h

theorem chunk18_sound (bs : List Nat) (ls : List address)
    (h : chunk18 bs = some ls) : ls.unattach.flatten = bs :=
  chunk18_sound_aux bs.length bs le_rfl ls h

theorem decode_tag1 (rest : List Nat) :
    decode (1 :: rest) = (match chunk18 rest with
      | some addrs => .ok (.peerList addrs)
      | none => .error ("malformed address list")) := by
  simp [decode]

theorem decode_tag4 (rest : List Nat) :
    decode (4 :: rest) =
      (if h : 18 ≤ rest.length then
        .ok (.dataRelayTo ⟨rest.take 18, by rw [List.length_take]; omega⟩
          (rest.drop 18))
       else .error ("short relay request")) := by
  simp [decode]

theorem decode_tag5 (rest : List Nat) :
    decode (5 :: rest) =
      (if h : 18 ≤ rest.length then
        .ok (.dataRelayedFrom ⟨rest.take 18, by rw [List.length_take]; omega⟩
          (rest.drop 18))
       else .error ("short relayed payload")) := by
  simp [decode]

theorem decode_encode (m : msg) : decode (encode m) = .ok m := by
  cases m with
  | getPeerList => simp [encode, decode]
  | keepAlive => simp [encode, decode]
  | isAlive => simp [encode, decode]
  | dataDirect dat => simp [encode, decode]
  | peerList addrs =>
    show decode (1 :: addrs.unattach.flatten) = _
    rw [decode_tag1, chunk18_join]
  | dataRelayTo To dat =>
    show decode (4 :: (To.val ++ dat)) = _
    have hlen : 18 ≤ (To.val ++ dat).length := by simp [To.property]
    rw [decode_tag4, dif_pos hlen]
    congr 1
    congr 1
    · exact Subtype.ext (take_append_exact _ _ _ To.property)
    · exact drop_append_exact _ _ _ To.property
  | dataRelayedFrom fr dat =>
    show decode (5 :: (fr.val ++ dat)) = _
    have hlen : 18 ≤ (fr.val ++ dat).length := by simp [fr.property]
    rw [decode_tag5, dif_pos hlen]
    congr 1
    congr 1
    · exact Subtype.ext (take_append_exact _ _ _ fr.property)
    · exact drop_append_exact _ _ _ fr.property

theorem decode_canonical (bs : List Nat) (m : msg)
    (h : decode bs = .ok m) : encode m = bs := by
  match bs with
  | [] => simp [decode] at h
  | t :: rest =>
    by_cases h0 : t = 0
    · subst h0
      by_cases hr : rest = []
      · subst hr
        have hm : msg.getPeerList = m := by
          apply Except.ok.inj
          rw [← h]
          simp [decode]
        rw [← hm]
        rfl
      · rw [show decode (0 :: rest) = .error ("trailing bytes") from by
          simp [decode, hr]] at h
        exact absurd h (by simp)
    · by_cases h1 : t = 1
      · subst h1
        cases hc : chunk18 rest with
        | none =>
          rw [show decode (1 :: rest) = .error ("malformed address list") from by
            simp [decode, hc]] at h
          exact absurd h (by simp)
        | some addrs =>
          have hm : msg.peerList addrs = m := by
            apply Except.ok.inj
            rw [← h]
            simp [decode, hc]
          rw [← hm]
          show 1 :: addrs.unattach.flatten = 1 :: rest
          rw [chunk18_sound rest addrs hc]
      · by_cases h2 : t = 2
        · subst h2
          by_cases hr : rest = []
          · subst hr
            have hm : msg.keepAlive = m := by
              apply Except.ok.inj
              rw [← h]
              simp [decode]
            rw [← hm]
            rfl
          · rw [show decode (2 :: rest) = .error ("trailing bytes") from by
              simp [decode, hr]] at h
            exact absurd h (by simp)
        · by_cases h3 : t = 3
          · subst h3
            by_cases hr : rest = []
            · subst hr
              have hm : msg.isAlive = m := by
                apply Except.ok.inj
                rw [← h]
                simp [decode]
              rw [← hm]
              rfl
            · rw [show decode (3 :: rest) = .error ("trailing bytes") from by
                simp [decode, hr]] at h
              exact absurd h (by simp)
          · by_cases h4 : t = 4
            · subst h4
              by_cases hl : 18 ≤ rest.length
              · have hm : msg.dataRelayTo
                    ⟨rest.take 18, by rw [List.length_take]; omega⟩
                    (rest.drop 18) = m := by
                  apply Except.ok.inj
                  rw [← h]
                  simp [decode, hl]
                rw [← hm]
                show 4 :: (rest.take 18 ++ rest.drop 18) = 4 :: rest
                rw [List.take_append_drop]
              · rw [show decode (4 :: rest) = .error ("short relay request") from by
                  simp [decode, hl]] at h
                exact absurd h (by simp)
            · by_cases h5 : t = 5
              · subst h5
                by_cases hl : 18 ≤ rest.length
                · have hm : msg.dataRelayedFrom
                      ⟨rest.take 18, by rw [List.length_take]; omega⟩
                      (rest.drop 18) = m := by
                    apply Except.ok.inj
                    rw [← h]
                    simp [decode, hl]
                  rw [← hm]
                  show 5 :: (rest.take 18 ++ rest.drop 18) = 5 :: rest
                  rw [List.take_append_drop]
                · rw [show decode (5 :: rest) = .error ("short relayed payload") from by
                    simp [decode, hl]] at h
                  exact absurd h (by simp)
              · by_cases h6 : t = 6
                · subst h6
                  have hm : msg.dataDirect rest = m := by
                    apply Except.ok.inj
                    rw [← h]
                    simp [decode]
                  rw [← hm]
                  rfl
                · rw [show decode (t :: rest) = .error ("unknown tag") from by
                    simp [decode, h0, h1, h2, h3, h4, h5, h6]] at h
                  exact absurd h (by simp)

/-- Source: `type server struct { peers map[address]struct{} }`.  The Go
map with unit values is a finite set of keys; it is modelled as a list of
keys (iteration order of a Go map is arbitrary, so no order is relied on),
kept duplicate-free by the insertion operation below. -/
structure server where
  peers : List address

/-- Go map insertion `s.peers[a] = struct{}{}` on the set-like map: adds the
key when absent, otherwise leaves the set unchanged. -/
def insertKey (l : List address) (a : address) : List address :=
  if a ∈ l then l else a :: l

/-- Source: `func (m getPeerList) updateServer` — insert the sender's key
into `peers`, then reply to the sender with a `peerList` holding every key
of the updated map except the sender's own. -/
def getPeerList_updateServer (s : server) (fr : Endpoint) : server × List response :=
  let a := addrKey fr
  let peers' := insertKey s.peers a
  (⟨peers'⟩, [⟨some fr, .peerList (peers'.filter (fun k => k ≠ a))⟩])

/-- Source: `func (m dataRelayTo) updateServer` — iff the target key is a
member, forward the payload as a `dataRelayedFrom` tagged with the sender's
key, to the endpoint reconstructed from the target key; the server state is
never modified. -/
def dataRelayTo_updateServer (s : server) (fr : Endpoint) (To : address)
    (dat : List Nat) : server × List response :=
  if To ∈ s.peers then
    (s, [⟨addrFromKey To, .dataRelayedFrom (addrKey fr) dat⟩])
  else
    (s, [])

/-- Dispatch of `serverRequest.updateServer`.  Only `getPeerList` and
`dataRelayTo` are server requests; the remaining variants are not part of
the server's accepted set and leave the state untouched with no reply
(per the specification; in the source those variants do not implement the
`serverRequest` interface). -/
def updateServer (m : msg) (s : server) (fr : Endpoint) : server × List response :=
  match m with
  | .getPeerList => getPeerList_updateServer s fr
  | .dataRelayTo To dat => dataRelayTo_updateServer s fr To dat
  | _ => (s, [])

/-- Source: the inbound-request arm of `meshServer`'s event loop — decode
the datagram; on failure log and continue (no state change, no emission);
on success emit the sender on the `seen` channel and dispatch.  The second
component lists the `seen` emissions, the third the responses produced. -/
def meshServerStep (s : server) (req : request) :
    server × List Endpoint × List response :=
  match decode req.buffer with
  | .error _ => (s, [], [])
  | .ok m =>
    let r := updateServer m s req.fr
    (r.1, [req.fr], r.2)

/-- Outcome of one iteration of the sender task `writer` for one queued
response: drop `nil`-target entries, abort the process when encoding fails
(`log.Fatal`), otherwise write one datagram (the result of the UDP write is
ignored).  The gob encoder is external, so its outcome is a parameter
(`enc`); `writeOk` models whether the subsequent socket write succeeds. -/
inductive writerAction where
  | dropped : writerAction
  | fatalEnc : String → writerAction
  | sent : List Nat → Endpoint → writerAction
deriving DecidableEq

/-- Source: the loop body of `func writer` (lines 86..97). -/
def writerStep (enc : msg → Except String (List Nat)) (_writeOk : Bool)
    (r : response) : writerAction :=
  match r.To with
  | none => .dropped
  | some t =>
    match enc r.m with
    | .error e => .fatalEnc e
    | .ok b => .sent b t

/-- Source: `type peer struct` — stable peer ids (a Go map modelled as an
association list, looked up by first match), the fresh-id counter, and the
alive set (set-like map, as for the server's `peers`). -/
structure peer where
  peerIds : List (address × Nat)
  nextPeerId : Nat
  alivePeers : List address

/-- Go map lookup `id, ok := m[a]` on the association-list model. -/
def alookup : List (address × Nat) → address → Option Nat
  | [], _ => none
  | (k, v) :: rest, a => if a = k then some v else alookup rest a

/-- Go map insertion `m[a] = v` on the association-list model: overwrite the
existing binding or append a fresh one. -/
def ainsert : List (address × Nat) → address → Nat → List (address × Nat)
  | [], k, v => [(k, v)]
  | (k', v') :: rest, k, v =>
    if k' = k then (k, v) :: rest else (k', v') :: ainsert rest k v

/-- Source: the loop of `func (m peerList) updatePeer` — fold over the
received addresses building `knownPeerIds`, reusing the id found in the
prior map (`prior`) or allocating `nextPeerId` (and incrementing it) for
newcomers.  Returns the new map and the new counter. -/
def rebuildIds (prior : List (address × Nat)) :
    List address → List (address × Nat) → Nat → List (address × Nat) × Nat
  | [], known, n => (known, n)
  | a :: rest, known, n =>
    match alookup prior a with
    | some id => rebuildIds prior rest (ainsert known a id) n
    | none => rebuildIds prior rest (ainsert known a n) (n + 1)

/-- Source: `func (m peerList) updatePeer` — replace `peerIds` by the map
rebuilt over exactly the received addresses. -/
def peerList_updatePeer (p : peer) (Addresses : List address) : peer :=
  let r := rebuildIds p.peerIds Addresses [] p.nextPeerId
  { p with peerIds := r.1, nextPeerId := r.2 }

/-- Source: the watcher-timeout arm of `meshPeer`'s event loop —
`delete(p.alivePeers, addrKey(a))`; nothing else is touched. -/
def peerOnTimeout (p : peer) (a : Endpoint) : peer :=
  { p with alivePeers := p.alivePeers.filter (fun k => k ≠ addrKey a) }

/-- Source: the broadcast arm of `meshPeer`'s event loop — for every entry
of `peerIds`, copy the payload and send it as a `dataDirect` to the peer's
endpoint when the peer is alive, else as a `dataRelayTo` for it to the
server endpoint.  (The Go copy `cp` is value-equal to `buf`; buffer
aliasing is not representable in the value model.) -/
def broadcastFanout (p : peer) (serverAddressUdp : Endpoint) (buf : List Nat) :
    List response :=
  p.peerIds.map (fun kv =>
    if kv.1 ∈ p.alivePeers then
      ⟨addrFromKey kv.1, .dataDirect buf⟩
    else
      ⟨some serverAddressUdp, .dataRelayTo kv.1 buf⟩)

/-- Whether a response is a payload-bearing message destined for the peer
with key `k`: a `dataDirect` sent to `k`'s endpoint, or a relay request
whose target field is `k`. -/
def addressedTo (k : address) (r : response) : Bool :=
  match r.m with
  | .dataDirect _ => decide (r.To = addrFromKey k)
  | .dataRelayTo To _ => decide (To = k)
  | _ => false

theorem alookup_ainsert (m : List (address × Nat)) (k a : address) (v : Nat) :
    alookup (ainsert m k v) a = if a = k then some v else alookup m a := by
  induction m with
  | nil => simp [ainsert, alookup]
  | cons kv rest ih =>
    obtain ⟨k', v'⟩ := kv
    simp only [ainsert]
    by_cases hk : k' = k
    · rw [if_pos hk]
      simp only [alookup]
      by_cases ha : a = k
      · rw [if_pos ha, if_pos ha]
      · rw [if_neg ha, if_neg ha, if_neg (fun h => ha (h.trans hk))]
    · rw [if_neg hk]
      simp only [alookup]
      by_cases ha : a = k'
      · rw [if_pos ha, if_neg (fun h => hk (ha.symm.trans h)), if_pos ha]
      · rw [if_neg ha, ih]
        by_cases hak : a = k
        · rw [if_pos hak, if_pos hak]
        · rw [if_neg hak, if_neg hak, if_neg ha]

theorem rebuildIds_counter_mono (prior : List (address × Nat))
    (A : List address) (known : List (address × Nat)) (n : Nat) :
    n ≤ (rebuildIds prior A known n).2 := by
  induction A generalizing known n with
  | nil => simp [rebuildIds]
  | cons a rest ih =>
    simp only [rebuildIds]
    cases alookup prior a with
    | some id => exact ih _ n
    | none => exact Nat.le_trans (Nat.le_succ n) (ih _ (n + 1))

theorem rebuildIds_not_mem (prior : List (address × Nat))
    (A : List address) (known : List (address × Nat)) (n : Nat) (a : address)
    (h : a ∉ A) :
    alookup (rebuildIds prior A known n).1 a = alookup known a := by
  induction A generalizing known n with
  | nil => simp [rebuildIds]
  | cons c rest ih =>
    have hac : a ≠ c := fun hx => h (hx ▸ List.mem_cons_self c rest)
    have har : a ∉ rest := fun hx => h (List.mem_cons_of_mem c hx)
    simp only [rebuildIds]
    cases alookup prior c with
    | some id => rw [ih _ n har, alookup_ainsert, if_neg hac]
    | none => rw [ih _ (n + 1) har, alookup_ainsert, if_neg hac]

theorem rebuildIds_isSome (prior : List (address × Nat))
    (A : List address) (known : List (address × Nat)) (n : Nat) (a : address) :
    (alookup (rebuildIds prior A known n).1 a).isSome = true ↔
      a ∈ A ∨ (alookup known a).isSome = true := by
  induction A generalizing known n with
  | nil => simp [rebuildIds]
  | cons c rest ih =>
    simp only [rebuildIds]
    by_cases hac : a = c
    · subst hac
      cases alookup prior a with
      | some id =>
        rw [ih]
        by_cases har : a ∈ rest
        · simp [har]
        · simp [har, alookup_ainsert]
      | none =>
        rw [ih]
        by_cases har : a ∈ rest
        · simp [har]
        · simp [har, alookup_ainsert]
    · cases alookup prior c with
      | some id =>
        rw [ih]
        simp [alookup_ainsert, hac]
      | none =>
        rw [ih]
        simp [alookup_ainsert, hac]

theorem rebuildIds_prior_mem (prior : List (address × Nat))
    (A : List address) (known : List (address × Nat)) (n : Nat) (a : address)
    (id : Nat) (hA : a ∈ A) (hp : alookup prior a = some id) :
    alookup (rebuildIds prior A known n).1 a = some id := by
  induction A generalizing known n with
  | nil => exact absurd hA (List.not_mem_nil a)
  | cons c rest ih =>
    simp only [rebuildIds]
    by_cases har : a ∈ rest
    · cases alookup prior c with
      | some i => exact ih _ n har
      | none => exact ih _ (n + 1) har
    · have hac : a = c := by
        rcases List.mem_cons.mp hA with h | h
        · exact h
        · exact absurd h har
      subst hac
      rw [hp]
      rw [rebuildIds_not_mem prior rest _ n a har, alookup_ainsert, if_pos rfl]

theorem rebuildIds_fresh_lb (prior : List (address × Nat))
    (A : List address) (known : List (address × Nat)) (n : Nat) (a : address)
    (hA : a ∈ A) (hp : alookup prior a = none) :
    ∀ v, alookup (rebuildIds prior A known n).1 a = some v → n ≤ v := by
  induction A generalizing known n with
  | nil => exact absurd hA (List.not_mem_nil a)
  | cons c rest ih =>
    intro v hv
    simp only [rebuildIds] at hv
    by_cases har : a ∈ rest
    · revert hv
      cases alookup prior c with
      | some i => exact fun hv => ih _ n har v hv
      | none =>
        exact fun hv => Nat.le_trans (Nat.le_succ n) (ih _ (n + 1) har v hv)
    · have hac : a = c := by
        rcases List.mem_cons.mp hA with h | h
        · exact h
        · exact absurd h har
      subst hac
      simp only [hp] at hv
      rw [rebuildIds_not_mem prior rest _ (n + 1) a har, alookup_ainsert,
        if_pos rfl] at hv
      obtain rfl : n = v := by simpa using hv
      exact Nat.le_refl n

theorem rebuildIds_fresh_ne (prior : List (address × Nat))
    (A : List address) (known : List (address × Nat)) (n : Nat)
    (a b : address) (hA : a ∈ A) (hB : b ∈ A) (hab : a ≠ b)
    (hpa : alookup prior a = none) (hpb : alookup prior b = none)
    (ia ib : Nat)
    (ha : alookup (rebuildIds prior A known n).1 a = some ia)
    (hb : alookup (rebuildIds prior A known n).1 b = some ib) : ia ≠ ib := by
  induction A generalizing known n with
  | nil => exact absurd hA (List.not_mem_nil a)
  | cons c rest ih =>
    by_cases har : a ∈ rest
    · by_cases hbr : b ∈ rest
      · simp only [rebuildIds] at ha hb
        revert ha hb
        cases alookup prior c with
        | some i => exact fun ha hb => ih _ n har hbr ha hb
        | none => exact fun ha hb => ih _ (n + 1) har hbr ha hb
      · -- b = c, a ∈ rest: b's id is the counter value n, a's is ≥ n + 1
        have hbc : b = c := by
          rcases List.mem_cons.mp hB with h | h
          · exact h
          · exact absurd h hbr
        subst hbc
        simp only [rebuildIds, hpb] at ha hb
        rw [rebuildIds_not_mem prior rest _ (n + 1) b hbr, alookup_ainsert,
          if_pos rfl] at hb
        obtain rfl : n = ib := by simpa using hb
        have := rebuildIds_fresh_lb prior rest _ (n + 1) a har hpa ia ha
        omega
    · have hac : a = c := by
        rcases List.mem_cons.mp hA with h | h
        · exact h
        · exact absurd h har
      subst hac
      have hbr : b ∈ rest := by
        rcases List.mem_cons.mp hB with h | h
        · exact absurd h.symm hab
        · exact h
      simp only [rebuildIds, hpa] at ha hb
      rw [rebuildIds_not_mem prior rest _ (n + 1) a har, alookup_ainsert,
        if_pos rfl] at ha
      obtain rfl : n = ia := by simpa using ha
      have := rebuildIds_fresh_lb prior rest _ (n + 1) b hbr hpb ib hb
      omega

theorem addressedTo_entry (p : peer) (srv : Endpoint) (buf : List Nat)
    (k : address) (hk : KeyOk k) (kv : address × Nat) (hok : KeyOk kv.1) :
    addressedTo k (if kv.1 ∈ p.alivePeers then
        (⟨addrFromKey kv.1, .dataDirect buf⟩ : response)
      else ⟨some srv, .dataRelayTo kv.1 buf⟩) = decide (kv.1 = k) := by
  by_cases hal : kv.1 ∈ p.alivePeers
  · rw [if_pos hal]
    show decide (addrFromKey kv.1 = addrFromKey k) = decide (kv.1 = k)
    rw [decide_eq_decide]
    constructor
    · exact fun h => addrFromKey_inj _ _ hok hk h
    · intro h
      rw [h]
  · rw [if_neg hal]
    rfl

theorem countP_fanout (p : peer) (srv : Endpoint) (buf : List Nat)
    (k : address) (hk : KeyOk k) (hok : ∀ kv ∈ p.peerIds, KeyOk kv.1) :
    (broadcastFanout p srv buf).countP (addressedTo k)
      = p.peerIds.countP (fun kv => decide (kv.1 = k)) := by
  unfold broadcastFanout
  rw [List.countP_map]
  apply List.countP_congr
  intro kv hkv
  show (addressedTo k (if kv.1 ∈ p.alivePeers then _ else _) = true) ↔ _
  rw [addressedTo_entry p srv buf k hk kv (hok kv hkv)]

theorem countP_key_one (l : List (address × Nat)) (k : address)
    (hnd : (l.map Prod.fst).Nodup) (hmem : k ∈ l.map Prod.fst) :
    l.countP (fun kv => decide (kv.1 = k)) = 1 := by
  induction l with
  | nil => simp at hmem
  | cons kv rest ih =>
    rw [List.map_cons] at hmem hnd
    by_cases hk : kv.1 = k
    · rw [List.countP_cons_of_pos _ _ (by simpa using hk)]
      have hnotin : k ∉ rest.map Prod.fst := by
        rw [← hk]
        exact (List.nodup_cons.mp hnd).1
      have hzero : rest.countP (fun kv => decide (kv.1 = k)) = 0 := by
        rw [List.countP_eq_zero]
        intro a ha
        simp only [decide_eq_true_eq]
        intro hfst
        exact hnotin (hfst ▸ List.mem_map_of_mem Prod.fst ha)
      rw [hzero]
    · rw [List.countP_cons_of_neg _ _ (by simpa using hk)]
      apply ih (List.nodup_cons.mp hnd).2
      rcases List.mem_cons.mp hmem with h | h
      · exact absurd h.symm hk
      · exact h

/-- Sample 18-byte key: seventeen zero bytes followed by `b`. -/
def sampleKey (b : Nat) : address := ⟨List.replicate 17 0 ++ [b], by simp⟩

/-- Sample endpoint 127.0.0.1:9000. -/
def sampleEndpoint : Endpoint := ⟨.v4 ⟨[127, 0, 0, 1], by simp⟩, 9000⟩

/-- Sample peer state: two known peers, of which only the first is alive. -/
def samplePeer : peer :=
  ⟨[(sampleKey 1, 0), (sampleKey 2, 1)], 2, [sampleKey 1]⟩

/-- C1: for every inbound datagram processed by the server core, the sender
endpoint is emitted on the seen channel iff the datagram decodes into a
protocol message; on decode failure the datagram is skipped with no seen
emission, no reply, and no state change. -/
theorem server_seen_iff_decode (s : server) (fr : Endpoint) (bs : List Nat) :
    ((meshServerStep s ⟨fr, bs⟩).2.1 = [fr] ↔ ∃ m, decode bs = .ok m)
    ∧ (∀ e, decode bs = .error e → meshServerStep s ⟨fr, bs⟩ = (s, [], [])) := by
  cases hd : decode bs with
  | error e =>
    have hstep : meshServerStep s ⟨fr, bs⟩ = (s, [], []) := by
      simp [meshServerStep, hd]
    refine ⟨?_, fun e' _ => hstep⟩
    rw [hstep]
    simp [hd]
  | ok m =>
    have hstep : (meshServerStep s ⟨fr, bs⟩).2.1 = [fr] := by
      simp [meshServerStep, hd]
    refine ⟨?_, ?_⟩
    · rw [hstep]
      simp [hd]
    · intro e he
      exact absurd he (by simp)

/-- C1 witness: a malformed (empty) datagram leaves the server state
unchanged with no seen emission and no reply. -/
theorem server_seen_iff_decode_witness :
    meshServerStep ⟨[]⟩ ⟨sampleEndpoint, []⟩ = (⟨[]⟩, [], []) :=
  (server_seen_iff_decode ⟨[]⟩ sampleEndpoint []).2 ("empty datagram") rfl

/-- C2: after processing a `peerList` with addresses `A`, the domain of
`peerIds` is exactly the set of addresses of `A`; addresses of `A` already
known keep their id; ids of new addresses are pairwise distinct and distinct
from every id ever assigned (every previously assigned id being below the
fresh-id counter); addresses absent from `A` are removed. -/
theorem peerList_rebuild_spec (p : peer) (A : List address)
    (ever : Nat → Prop) (hever : ∀ i, ever i → i < p.nextPeerId) :
    (∀ a, (alookup (peerList_updatePeer p A).peerIds a).isSome = true ↔ a ∈ A)
    ∧ (∀ a id, a ∈ A → alookup p.peerIds a = some id →
        alookup (peerList_updatePeer p A).peerIds a = some id)
    ∧ (∀ a b ia ib, a ≠ b →
        alookup p.peerIds a = none → alookup p.peerIds b = none →
        alookup (peerList_updatePeer p A).peerIds a = some ia →
        alookup (peerList_updatePeer p A).peerIds b = some ib → ia ≠ ib)
    ∧ (∀ a id, alookup p.peerIds a = none →
        alookup (peerList_updatePeer p A).peerIds a = some id → ¬ ever id)
    ∧ (∀ a, a ∉ A → alookup (peerList_updatePeer p A).peerIds a = none) := by
  have hP : (peerList_updatePeer p A).peerIds
      = (rebuildIds p.peerIds A [] p.nextPeerId).1 := rfl
  have hdom : ∀ a, (alookup (rebuildIds p.peerIds A [] p.nextPeerId).1 a).isSome
      = true ↔ a ∈ A := by
    intro a
    rw [rebuildIds_isSome]
    simp [alookup]
  refine ⟨?_, ?_, ?_, ?_, ?_⟩
  · intro a
    rw [hP]
    exact hdom a
  · intro a id hA hp
    rw [hP]
    exact rebuildIds_prior_mem _ _ _ _ _ _ hA hp
  · intro a b ia ib hab hpa hpb ha hb
    rw [hP] at ha hb
    have hA : a ∈ A := (hdom a).mp (by rw [ha]; rfl)
    have hB : b ∈ A := (hdom b).mp (by rw [hb]; rfl)
    exact rebuildIds_fresh_ne _ _ _ _ _ _ hA hB hab hpa hpb _ _ ha hb
  · intro a id hpn hsome hev
    rw [hP] at hsome
    have hA : a ∈ A := (hdom a).mp (by rw [hsome]; rfl)
    have hlb := rebuildIds_fresh_lb _ _ _ _ _ hA hpn id hsome
    have := hever id hev
    omega
  · intro a hA
    rw [hP, rebuildIds_not_mem _ _ _ _ _ hA]
    rfl

/-- C2 witness: a known address keeps its id across a rebuild. -/
theorem peerList_rebuild_spec_witness :
    alookup (peerList_updatePeer ⟨[(sampleKey 1, 0)], 1, []⟩
      [sampleKey 1, sampleKey 3]).peerIds (sampleKey 1) = some 0 :=
  (peerList_rebuild_spec ⟨[(sampleKey 1, 0)], 1, []⟩ [sampleKey 1, sampleKey 3]
    (fun i => i < 1) (fun _ hi => hi)).2.1 (sampleKey 1) 0 (by decide) (by decide)

/-- C3: on broadcast, every address known in `peerIds` is sent exactly one
payload-bearing message — a `dataDirect` to its endpoint when alive, else a
`dataRelayTo` for it to the server endpoint — and addresses outside
`peerIds` receive nothing. -/
theorem broadcast_fanout_spec (p : peer) (srv : Endpoint) (buf : List Nat)
    (hnd : (p.peerIds.map Prod.fst).Nodup)
    (hok : ∀ kv ∈ p.peerIds, KeyOk kv.1) (k : address) (hk : KeyOk k) :
    (k ∈ p.peerIds.map Prod.fst →
      (broadcastFanout p srv buf).countP (addressedTo k) = 1
      ∧ (k ∈ p.alivePeers →
          (⟨addrFromKey k, .dataDirect buf⟩ : response) ∈ broadcastFanout p srv buf)
      ∧ (k ∉ p.alivePeers →
          (⟨some srv, .dataRelayTo k buf⟩ : response) ∈ broadcastFanout p srv buf))
    ∧ (k ∉ p.peerIds.map Prod.fst →
      (broadcastFanout p srv buf).countP (addressedTo k) = 0) := by
  constructor
  · intro hmem
    refine ⟨?_, ?_, ?_⟩
    · rw [countP_fanout p srv buf k hk hok]
      exact countP_key_one _ _ hnd hmem
    · intro hal
      obtain ⟨kv, hkv, hfst⟩ := List.mem_map.mp hmem
      have hin : (if kv.1 ∈ p.alivePeers then
            (⟨addrFromKey kv.1, .dataDirect buf⟩ : response)
          else ⟨some srv, .dataRelayTo kv.1 buf⟩) ∈ broadcastFanout p srv buf :=
        List.mem_map_of_mem _ hkv
      rw [hfst, if_pos hal] at hin
      exact hin
    · intro hal
      obtain ⟨kv, hkv, hfst⟩ := List.mem_map.mp hmem
      have hin : (if kv.1 ∈ p.alivePeers then
            (⟨addrFromKey kv.1, .dataDirect buf⟩ : response)
          else ⟨some srv, .dataRelayTo kv.1 buf⟩) ∈ broadcastFanout p srv buf :=
        List.mem_map_of_mem _ hkv
      rw [hfst, if_neg hal] at hin
      exact hin
  · intro hmem
    rw [countP_fanout p srv buf k hk hok, List.countP_eq_zero]
    intro kv hkv
    simp only [decide_eq_true_eq]
    intro hfst
    exact hmem (hfst ▸ List.mem_map_of_mem Prod.fst hkv)

/-- C3 witness: the alive sample peer gets exactly one message, the direct
one carrying the payload. -/
theorem broadcast_fanout_spec_witness :
    (broadcastFanout samplePeer sampleEndpoint [222]).countP
      (addressedTo (sampleKey 1)) = 1 :=
  ((broadcast_fanout_spec samplePeer sampleEndpoint [222] (by decide) (by decide)
    (sampleKey 1) (by decide)).1 (by decide)).1

/-- C4: `getPeerList` inserts the sender's key into the membership and
replies to the sender with a single `peerList` whose addresses are exactly
the updated membership minus the sender's own key (order immaterial). -/
theorem getPeerList_spec (s : server) (fr : Endpoint) (hnd : s.peers.Nodup) :
    (∀ k, k ∈ (getPeerList_updateServer s fr).1.peers ↔
        (k = addrKey fr ∨ k ∈ s.peers))
    ∧ (∃ out : List address,
        (getPeerList_updateServer s fr).2 = [⟨some fr, .peerList out⟩]
        ∧ out.Nodup
        ∧ (∀ k, k ∈ out ↔
            (k ∈ (getPeerList_updateServer s fr).1.peers ∧ k ≠ addrKey fr))) := by
  have hpeers : (getPeerList_updateServer s fr).1.peers
      = insertKey s.peers (addrKey fr) := rfl
  have hnd' : (insertKey s.peers (addrKey fr)).Nodup := by
    unfold insertKey
    by_cases h : addrKey fr ∈ s.peers
    · rw [if_pos h]
      exact hnd
    · rw [if_neg h]
      exact List.nodup_cons.mpr ⟨h, hnd⟩
  constructor
  · intro k
    rw [hpeers]
    unfold insertKey
    by_cases h : addrKey fr ∈ s.peers
    · rw [if_pos h]
      constructor
      · exact fun hk => Or.inr hk
      · rintro (rfl | hk)
        · exact h
        · exact hk
    · rw [if_neg h]
      exact List.mem_cons
  · refine ⟨(insertKey s.peers (addrKey fr)).filter (fun k => k ≠ addrKey fr),
      rfl, hnd'.filter _, ?_⟩
    intro k
    rw [hpeers, List.mem_filter]
    simp

/-- C4 witness: with one prior member and a fresh sender, the reply lists
exactly the prior member. -/
theorem getPeerList_spec_witness :
    (∀ k, k ∈ (getPeerList_updateServer ⟨[sampleKey 1]⟩ sampleEndpoint).1.peers ↔
        (k = addrKey sampleEndpoint ∨ k ∈ ([sampleKey 1] : List address)))
    ∧ (∃ out : List address,
        (getPeerList_updateServer ⟨[sampleKey 1]⟩ sampleEndpoint).2
          = [⟨some sampleEndpoint, .peerList out⟩]
        ∧ out.Nodup
        ∧ (∀ k, k ∈ out ↔
            (k ∈ (getPeerList_updateServer ⟨[sampleKey 1]⟩ sampleEndpoint).1.peers
             ∧ k ≠ addrKey sampleEndpoint))) :=
  getPeerList_spec ⟨[sampleKey 1]⟩ sampleEndpoint (by decide)

/-- C5: a relay request is forwarded — unchanged, tagged with the sender's
key, to the endpoint rebuilt from the target key — iff the target is a
member; otherwise nothing is sent; the state is unchanged either way. -/
theorem dataRelayTo_spec (s : server) (fr : Endpoint) (To : address)
    (dat : List Nat) :
    (To ∈ s.peers →
      dataRelayTo_updateServer s fr To dat
        = (s, [⟨addrFromKey To, .dataRelayedFrom (addrKey fr) dat⟩]))
    ∧ (To ∉ s.peers → dataRelayTo_updateServer s fr To dat = (s, [])) := by
  constructor
  · intro h
    unfold dataRelayTo_updateServer
    rw [if_pos h]
  · intro h
    unfold dataRelayTo_updateServer
    rw [if_neg h]

/-- C5 witness: a relay to a present member is forwarded verbatim. -/
theorem dataRelayTo_spec_witness :
    dataRelayTo_updateServer ⟨[sampleKey 1]⟩ sampleEndpoint (sampleKey 1) [7]
      = (⟨[sampleKey 1]⟩, [⟨addrFromKey (sampleKey 1),
          .dataRelayedFrom (addrKey sampleEndpoint) [7]⟩]) :=
  (dataRelayTo_spec ⟨[sampleKey 1]⟩ sampleEndpoint (sampleKey 1) [7]).1 (by decide)

/-- C6: the codec round-trips every protocol message
(`decode (encode m) = ok m`), only encodings decode successfully (so unknown
or malformed bytes yield a decode error), and a decode error is non-fatal to
the server loop: the datagram is discarded with no state change and no
output. -/
theorem codec_roundtrip_spec :
    (∀ m : msg, decode (encode m) = .ok m)
    ∧ (∀ (bs : List Nat) (m : msg), decode bs = .ok m → encode m = bs)
    ∧ (∀ (s : server) (fr : Endpoint) (bs : List Nat) (e : String),
        decode bs = .error e → meshServerStep s ⟨fr, bs⟩ = (s, [], [])) := by
  refine ⟨decode_encode, decode_canonical, ?_⟩
  intro s fr bs e he
  simp [meshServerStep, he]

/-- C6 witness: the canonicity direction evaluated at the `keepAlive`
encoding. -/
theorem codec_roundtrip_spec_witness : encode msg.keepAlive = [2] :=
  codec_roundtrip_spec.2.1 [2] msg.keepAlive rfl

/-- C7: the key/endpoint conversion is lossless — `addrKey` is a left
inverse of `addrFromKey` on legal keys, `addrFromKey` recovers a
UDP-equivalent endpoint from any key built by `addrKey`, and two endpoints
are UDP-equivalent iff their keys are byte-equal. -/
theorem addr_codec_lossless :
    (∀ (k : address) (e : Endpoint), KeyOk k → addrFromKey k = some e →
        addrKey e = k)
    ∧ (∀ e : Endpoint, ∃ e', addrFromKey (addrKey e) = some e' ∧ udpEquiv e' e)
    ∧ (∀ e1 e2 : Endpoint, udpEquiv e1 e2 ↔ addrKey e1 = addrKey e2) :=
  ⟨fun k e hk he => addrKey_addrFromKey k hk e he,
   addrFromKey_addrKey,
   addrKey_inj_iff⟩

/-- C7 witness: rebuilding the sample key's endpoint and converting back
yields the key again. -/
theorem addr_codec_lossless_witness :
    addrKey ⟨.v6 ⟨List.replicate 16 0, by simp⟩, 1⟩ = sampleKey 1 :=
  addr_codec_lossless.1 (sampleKey 1) ⟨.v6 ⟨List.replicate 16 0, by simp⟩, 1⟩
    (by decide) (by decide)

/-- C8: a watcher timeout for an endpoint removes (only) its key from the
alive set; `peerIds` and `nextPeerId` are untouched. -/
theorem peer_timeout_frame (p : peer) (a : Endpoint) :
    (peerOnTimeout p a).peerIds = p.peerIds
    ∧ (peerOnTimeout p a).nextPeerId = p.nextPeerId
    ∧ addrKey a ∉ (peerOnTimeout p a).alivePeers
    ∧ (∀ k, k ∈ (peerOnTimeout p a).alivePeers ↔
        (k ∈ p.alivePeers ∧ k ≠ addrKey a)) := by
  have hmemiff : ∀ k, k ∈ (peerOnTimeout p a).alivePeers ↔
      (k ∈ p.alivePeers ∧ k ≠ addrKey a) := by
    intro k
    show k ∈ p.alivePeers.filter (fun k => k ≠ addrKey a) ↔ _
    rw [List.mem_filter]
    simp
  refine ⟨rfl, rfl, ?_, hmemiff⟩
  intro hmem
  exact ((hmemiff (addrKey a)).mp hmem).2 rfl

/-- C8 witness: the sample peer's id table survives a timeout unchanged. -/
theorem peer_timeout_frame_witness :
    (peerOnTimeout samplePeer sampleEndpoint).peerIds = samplePeer.peerIds :=
  (peer_timeout_frame samplePeer sampleEndpoint).1

/-- C9: `addrFromKey` always succeeds on an 18-byte key (the slice handed to
`AddrFromSlice` always has length 16), so a response targeted through it is
never discarded by the sender's nil-target check. -/
theorem addrFromKey_total_spec (k : address) :
    (addrFromKey k).isSome = true
    ∧ (∀ (enc : msg → Except String (List Nat)) (w : Bool) (m : msg),
        writerStep enc w ⟨addrFromKey k, m⟩ ≠ .dropped) := by
  refine ⟨addrFromKey_isSome k, ?_⟩
  intro enc w m
  obtain ⟨e, he⟩ := Option.isSome_iff_exists.mp (addrFromKey_isSome k)
  rw [show (⟨addrFromKey k, m⟩ : response) = ⟨some e, m⟩ from by rw [he]]
  show (match enc m with
    | .error s => writerAction.fatalEnc s
    | .ok b => .sent b e) ≠ .dropped
  cases enc m with
  | error s => simp
  | ok b => simp

/-- C9 witness: the sample key always reconstructs to a usable endpoint. -/
theorem addrFromKey_total_spec_witness :
    (addrFromKey (sampleKey 2)).isSome = true :=
  (addrFromKey_total_spec (sampleKey 2)).1

/-- C10: when encoding an outbound message fails the sender aborts the
process (`log.Fatal`) rather than dropping the message, and the outcome for
a datagram never depends on whether the socket write succeeds. -/
theorem writer_encode_fatal (enc : msg → Except String (List Nat)) (w : Bool)
    (t : Endpoint) (m : msg) :
    (∀ e, enc m = .error e → writerStep enc w ⟨some t, m⟩ = .fatalEnc e)
    ∧ (∀ (w' : Bool) (r : response), writerStep enc w r = writerStep enc w' r) := by
  constructor
  · intro e he
    show (match enc m with
      | .error e => writerAction.fatalEnc e
      | .ok b => .sent b t) = .fatalEnc e
    rw [he]
  · intro w' r
    rfl

/-- C10 witness: a failing encoder aborts the sender at a concrete message. -/
theorem writer_encode_fatal_witness :
    writerStep (fun _ => Except.error ("boom")) true
      ⟨some sampleEndpoint, msg.keepAlive⟩ = .fatalEnc ("boom") :=
  (writer_encode_fatal (fun _ => Except.error ("boom")) true sampleEndpoint
    msg.keepAlive).1 ("boom") rfl

end Mesher
